import Mathlib

/-!
Verification of the modular-arithmetic expression pipeline of
`tasks/regular/modular_arithmetic.py`.

Expressions are flat integer sequences: even positions hold residues and odd
positions hold operator codes `modulus + OP_BY_CHARACTER[c]`, with
`OP_BY_CHARACTER = {'+': 0, '-': 1, '*': 2, '_': 3}`.  The JAX integer arrays
of the source are modelled as `List Int`; the array combinators used by the
source (`[::2]` slicing, `cumsum`, `segment_prod`, masked updates) are
modelled by structurally recursive list functions with the same elementwise
semantics.
-/

namespace ModArith

/-- Code offset of `+`, i.e. `OP_BY_CHARACTER['+']`. -/
def OP_plus : Int := 0

/-- Code offset of `-`, i.e. `OP_BY_CHARACTER['-']`. -/
def OP_minus : Int := 1

/-- Code offset of `*`, i.e. `OP_BY_CHARACTER['*']`. -/
def OP_times : Int := 2

/-- Code offset of the blank padding symbol, i.e. `OP_BY_CHARACTER['_']`. -/
def OP_blank : Int := 3

/-- Model of `mask.at[::2].set(False)`: every even-indexed entry becomes
`false`, the odd-indexed entries are kept. -/
def set_even_false : List Bool → List Bool
  | [] => []
  | [_] => [false]
  | _ :: b :: rest => false :: b :: set_even_false rest

/-- Model of `mask.at[1::2].set(False)`: every odd-indexed entry becomes
`false`, the even-indexed entries are kept. -/
def set_odd_false : List Bool → List Bool
  | [] => []
  | [a] => [a]
  | a :: _ :: rest => a :: false :: set_odd_false rest

/-- Model of the stride-two slice `x[::2]` (entries at even indices). -/
def everyOther : List Int → List Int
  | [] => []
  | [a] => [a]
  | a :: _ :: rest => a :: everyOther rest

/-- Inclusive prefix sums continuing from a running total `acc`. -/
def cumsumFrom (acc : Int) : List Int → List Int
  | [] => []
  | x :: xs => (acc + x) :: cumsumFrom (acc + x) xs

/-- Model of `jnp.cumsum`: inclusive prefix sums. -/
def cumsum (l : List Int) : List Int := cumsumFrom 0 l

/-- Model of `jax.ops.segment_prod data segment_ids num_segments`: slot `j`
holds the product of all data entries whose segment id equals `j`; a slot
with no entries holds the multiplicative identity `1`. -/
def segment_prod (data segment_ids : List Int) (num_segments : Nat) : List Int :=
  (List.range num_segments).map (fun (j : Nat) =>
    (data.zip segment_ids).foldl
      (fun acc p => if p.2 = (j : Int) then acc * p.1 else acc) 1)

/-- Model of `_replace_subtractions`: every `-` operator code is rewritten to
the `+` operator code, and (via `.at[2:].multiply(1 - 2 * mask[1:-1])`) every
entry whose predecessor was a `-` code is multiplied by `-1`. -/
def replace_subtractions (expression : List Int) (modulus : Int) : List Int :=
  if expression.length < 2 then expression
  else
    let mask := expression.map (fun v => decide (v = modulus + OP_minus))
    let subtract_replaced :=
      expression.map (fun v => if v = modulus + OP_minus then modulus + OP_plus else v)
    subtract_replaced.take 2 ++
      List.zipWith (fun s b => s * (1 - 2 * (if b then (1 : Int) else 0)))
        (subtract_replaced.drop 2) ((mask.drop 1).dropLast)

/-- Model of `_perform_multiplications`: segment ids are the inclusive prefix
counts of `+` codes sampled at even positions; the products of the residues of
each segment are computed at the fixed width `length / 2 + 1` and slots whose
index exceeds the last segment id are masked to `0`. -/
def perform_multiplications (expression : List Int) (modulus : Int) : List Int :=
  let term_ids :=
    everyOther (cumsum (expression.map (fun v => if v = modulus + OP_plus then (1 : Int) else 0)))
  let maximum_term_number := expression.length / 2 + 1
  let products := segment_prod (everyOther expression) term_ids maximum_term_number
  List.zipWith (fun p (j : Nat) => p * (if (j : Int) ≤ term_ids.getLastD 0 then (1 : Int) else 0))
    products (List.range maximum_term_number)

/-- Model of `_replace_blanks`: a blank code at an odd (operator) position
becomes the `+` operator code, a blank code at an even (residue) position
becomes the residue `0`. -/
def replace_blanks (expression : List Int) (modulus : Int) : List Int :=
  let mask := expression.map (fun v => decide (v = OP_blank + modulus))
  let operator_mask := set_even_false mask
  let residual_mask := set_odd_false mask
  let blanks_replaced :=
    List.zipWith (fun b v => if b then OP_plus + modulus else v) operator_mask expression
  List.zipWith (fun b v => if b then (0 : Int) else v) residual_mask blanks_replaced

/-- Model of `_evaluate_expression`: blank resolution, then subtraction
elimination, then the fixed-width precedence reduction, then the sum of the
additive terms reduced by the Euclidean `%` (the semantics of `%` in the
source's numeric stack for a positive modulus). -/
def evaluate_expression (expression : List Int) (modulus : Int) : Int :=
  let e1 := replace_blanks expression modulus
  let e2 := replace_subtractions e1 modulus
  let additive_terms := perform_multiplications e2 modulus
  additive_terms.sum % modulus

/-- Task state established by `ModularArithmetic.__init__`: the modulus and
the stored operator offsets. -/
structure ModularArithmeticTask where
  modulus : Int
  operators : List Int

/-- Model of `ModularArithmetic.__init__`: the `operators` argument is
defaulted when absent but the stored operator tuple is the hard-coded
`(0, 2, 1)` in every case. -/
def ModularArithmetic_init (modulus : Int) (operators : Option (List String)) :
    ModularArithmeticTask :=
  let _operators := match operators with
    | none => ["+", "*", "-"]
    | some ops => ops
  { modulus := modulus, operators := [0, 2, 1] }

/-- Operator symbol codes drawn by `sample_batch`:
`self._modulus + np.array(list(self._operators))`. -/
def sample_ops (task : ModularArithmeticTask) : List Int :=
  task.operators.map (fun o => task.modulus + o)

/-! ## Reference (spec-side) definitions

The reference evaluator follows the specification's words: standard
precedence (multiplication binds tighter than addition and subtraction,
left to right), all arithmetic reduced modulo `m` at the end.  Expressions
are given structurally as a head residue together with a list of
(operator, residue) continuations; `encode` renders this structure as the
flat code sequence consumed by the pipeline.  Per the specification's blank
resolution contract, a blank in an operator slot denotes the padding
identity operator and is evaluated exactly like `+`. -/

/-- Abstract operator symbols of the specification. -/
inductive RefOp
  | plus
  | minus
  | times
  | blank
deriving DecidableEq

/-- Symbol code of an operator: the modulus plus the character offset. -/
def opCode (m : Int) : RefOp → Int
  | .plus => m + OP_plus
  | .minus => m + OP_minus
  | .times => m + OP_times
  | .blank => m + OP_blank

/-- Flat encoding of a structured expression: the head residue followed by
alternating operator codes and residues. -/
def encode (m : Int) : Int → List (RefOp × Int) → List Int
  | x, [] => [x]
  | x, (o, y) :: ps => x :: opCode m o :: encode m y ps

/-- Reference evaluator accumulator: `acc` is the sum of the completed
additive terms and `term` the multiplicative term in progress.  `-` closes
the current term and opens a new term with the negated residue; `blank`
behaves as the padding identity `+`. -/
def evalTerms : Int → Int → List (RefOp × Int) → Int
  | acc, term, [] => acc + term
  | acc, term, (.plus, y) :: ps => evalTerms (acc + term) y ps
  | acc, term, (.minus, y) :: ps => evalTerms (acc + term) (-y) ps
  | acc, term, (.times, y) :: ps => evalTerms acc (term * y) ps
  | acc, term, (.blank, y) :: ps => evalTerms (acc + term) y ps

/-- Reference evaluation of a structured expression modulo `m`. -/
def referenceEval (x : Int) (ps : List (RefOp × Int)) (m : Int) : Int :=
  evalTerms 0 x ps % m

/-- The list of additive terms of a structured expression (products of the
maximal runs of residues joined by `*`). -/
def termsList : Int → List (RefOp × Int) → List Int
  | t, [] => [t]
  | t, (.plus, y) :: ps => t :: termsList y ps
  | t, (.minus, y) :: ps => t :: termsList (-y) ps
  | t, (.times, y) :: ps => termsList (t * y) ps
  | t, (.blank, y) :: ps => t :: termsList y ps

/-- Structural effect of subtraction elimination: a `-` operator becomes `+`
and the residue following it is negated; other entries are unchanged. -/
def subElim : List (RefOp × Int) → List (RefOp × Int) :=
  List.map (fun p => if p.1 = RefOp.minus then (RefOp.plus, -p.2) else p)

/-- Structural effect of blank resolution on a residue: a blank code becomes
the residue `0`. -/
def blankRes (m v : Int) : Int := if v = OP_blank + m then 0 else v

/-- Structural effect of blank resolution on an operator symbol: a blank
becomes `+`. -/
def blankOp (o : RefOp) : RefOp := if o = RefOp.blank then RefOp.plus else o

/-- Structural effect of blank resolution on the continuation list. -/
def blankResolve (m : Int) (ps : List (RefOp × Int)) : List (RefOp × Int) :=
  ps.map (fun p => (blankOp p.1, blankRes m p.2))

/-- Number of `+` operators in a continuation list. -/
def plusCount : List (RefOp × Int) → Nat
  | [] => 0
  | (o, _) :: ps => (if o = RefOp.plus then 1 else 0) + plusCount ps

/-- Segment ids of the residues of a continuation list, continuing from the
running `+`-count `c`. -/
def idsFrom (c : Int) : List (RefOp × Int) → List Int
  | [] => []
  | (o, _) :: ps =>
      (c + (if o = RefOp.plus then 1 else 0)) ::
        idsFrom (c + (if o = RefOp.plus then 1 else 0)) ps

/-- Product of the data entries of a zipped (data, id) list whose id is `j`. -/
def prodFilter (l : List (Int × Int)) (j : Int) : Int :=
  l.foldl (fun acc p => if p.2 = j then acc * p.1 else acc) 1

/-! ## Basic structural lemmas -/

theorem two_step_induction {motive : List Int → Prop} (h0 : motive [])
    (h1 : ∀ a, motive [a]) (h2 : ∀ a b l, motive l → motive (a :: b :: l)) :
    ∀ l, motive l
  | [] => h0
  | [a] => h1 a
  | a :: b :: l => h2 a b l (two_step_induction h0 h1 h2 l)

theorem encode_length (m : Int) (ps : List (RefOp × Int)) :
    ∀ x, (encode m x ps).length = 2 * ps.length + 1 := by
  induction ps with
  | nil => intro x; simp [encode]
  | cons p ps ih =>
      intro x
      obtain ⟨o, y⟩ := p
      simp [encode, ih]
      omega

theorem replace_blanks_nil (m : Int) : replace_blanks [] m = [] := rfl

theorem replace_blanks_singleton (a m : Int) :
    replace_blanks [a] m = [if a = OP_blank + m then 0 else a] := by
  simp [replace_blanks, set_even_false, set_odd_false]

theorem replace_blanks_cons_cons (a b m : Int) (l : List Int) :
    replace_blanks (a :: b :: l) m =
      (if a = OP_blank + m then 0 else a) ::
        (if b = OP_blank + m then OP_plus + m else b) :: replace_blanks l m := by
  simp [replace_blanks, set_even_false, set_odd_false]

theorem blankOp_opCode (m : Int) (o : RefOp) :
    (if opCode m o = OP_blank + m then OP_plus + m else opCode m o) = opCode m (blankOp o) := by
  cases o <;>
    simp [opCode, blankOp, OP_plus, OP_minus, OP_times, OP_blank] <;>
    omega

/-- Blank resolution acts on an encoded expression by sending blank operator
codes to `+` and blank residue slots to `0`. -/
theorem replace_blanks_encode (m : Int) (ps : List (RefOp × Int)) :
    ∀ x, replace_blanks (encode m x ps) m = encode m (blankRes m x) (blankResolve m ps) := by
  induction ps with
  | nil =>
      intro x
      simp [encode, blankResolve, replace_blanks_singleton, blankRes]
  | cons p ps ih =>
      intro x
      obtain ⟨o, y⟩ := p
      simp only [encode, blankResolve, List.map_cons, replace_blanks_cons_cons, ih,
        blankOp_opCode]
      rfl

/-! ## Subtraction elimination -/

theorem take_two {α : Type} (a b : α) (l : List α) : (a :: b :: l).take 2 = [a, b] := rfl

theorem drop_two {α : Type} (a b : α) (l : List α) : (a :: b :: l).drop 2 = l := rfl

theorem zipWith_dropLast_of_lt {α β γ : Type} (f : α → β → γ) :
    ∀ (l₁ : List α) (l₂ : List β), l₁.length < l₂.length →
      List.zipWith f l₁ l₂.dropLast = List.zipWith f l₁ l₂ := by
  intro l₁
  induction l₁ with
  | nil => intro l₂ h; simp
  | cons a t ih =>
      intro l₂ h
      cases l₂ with
      | nil => simp at h
      | cons b t₂ =>
          cases t₂ with
          | nil => simp at h
          | cons c t₃ =>
              rw [List.dropLast_cons₂]
              simp only [List.zipWith_cons_cons]
              rw [ih (c :: t₃) (by simpa using h)]

theorem opCode_eq_minus_iff (m : Int) (o : RefOp) :
    opCode m o = m + OP_minus ↔ o = RefOp.minus := by
  cases o <;> simp [opCode, OP_plus, OP_minus, OP_times, OP_blank]

theorem subElim_cons_minus (y : Int) (ps : List (RefOp × Int)) :
    subElim ((RefOp.minus, y) :: ps) = (RefOp.plus, -y) :: subElim ps := by
  simp [subElim]

theorem subElim_cons_other (o : RefOp) (y : Int) (ps : List (RefOp × Int))
    (h : ¬ o = RefOp.minus) :
    subElim ((o, y) :: ps) = (o, y) :: subElim ps := by
  simp [subElim, h]

/-- The masked multiply of `_replace_subtractions`, read off the encoded tail:
the boolean `b` records whether the symbol preceding the head residue was a
`-` code. -/
theorem subElim_aux (m : Int) :
    ∀ (ps : List (RefOp × Int)) (b : Bool) (y : Int), y ≠ m + OP_minus →
      (∀ p ∈ ps, p.2 ≠ m + OP_minus) →
      List.zipWith (fun s c => s * (1 - 2 * (if c then (1 : Int) else 0)))
          ((encode m y ps).map (fun v => if v = m + OP_minus then m + OP_plus else v))
          (b :: (encode m y ps).map (fun v => decide (v = m + OP_minus))) =
        encode m (if b then -y else y) (subElim ps) := by
  intro ps
  induction ps with
  | nil =>
      intro b y hy _
      simp [encode, subElim, hy]
      cases b <;> simp
  | cons p ps ih =>
      intro b y hy h
      obtain ⟨o, z⟩ := p
      have hz : z ≠ m + OP_minus := h (o, z) (List.mem_cons_self _ _)
      have htail : ∀ q ∈ ps, q.2 ≠ m + OP_minus := fun q hq => h q (List.mem_cons_of_mem _ hq)
      by_cases ho : o = RefOp.minus
      · subst ho
        rw [subElim_cons_minus]
        simp only [encode, List.map_cons, List.zipWith_cons_cons]
        rw [ih (decide (opCode m RefOp.minus = m + OP_minus)) z hz htail]
        have e1 : opCode m RefOp.minus = m + OP_minus := rfl
        have e2 : opCode m RefOp.plus = m + OP_plus := rfl
        rw [e1, e2]
        simp [hy]
        cases b <;> simp
      · have hoc : ¬ (opCode m o = m + OP_minus) := by
          simpa [opCode_eq_minus_iff] using ho
        rw [subElim_cons_other o z ps ho]
        simp only [encode, List.map_cons, List.zipWith_cons_cons]
        rw [ih (decide (opCode m o = m + OP_minus)) z hz htail]
        simp [hoc, hy]
        cases b <;> simp

/-- Subtraction elimination acts on an encoded expression by turning every
`-` into `+` and negating the residue that follows it. -/
theorem replace_subtractions_encode (m x : Int) (ps : List (RefOp × Int))
    (hx : x ≠ m + OP_minus) (hps : ∀ p ∈ ps, p.2 ≠ m + OP_minus) :
    replace_subtractions (encode m x ps) m = encode m x (subElim ps) := by
  cases ps with
  | nil => simp [encode, replace_subtractions, subElim]
  | cons p ps =>
      obtain ⟨o, y⟩ := p
      have hy : y ≠ m + OP_minus := hps (o, y) (List.mem_cons_self _ _)
      have htail : ∀ q ∈ ps, q.2 ≠ m + OP_minus :=
        fun q hq => hps q (List.mem_cons_of_mem _ hq)
      have hlen : ¬ (encode m x ((o, y) :: ps)).length < 2 := by
        simp only [encode_length, List.length_cons]
        omega
      rw [replace_subtractions, if_neg hlen]
      by_cases ho : o = RefOp.minus
      · subst ho
        rw [subElim_cons_minus]
        simp only [encode, List.map_cons, take_two, drop_two, List.drop_one, List.tail_cons]
        rw [zipWith_dropLast_of_lt _ _ _
          (by simp only [List.length_map, List.length_cons, encode_length]; omega)]
        rw [subElim_aux m ps (decide (opCode m RefOp.minus = m + OP_minus)) y hy htail]
        have e1 : opCode m RefOp.minus = m + OP_minus := rfl
        have e2 : opCode m RefOp.plus = m + OP_plus := rfl
        rw [e1, e2]
        simp [hx]
      · have hoc : ¬ (opCode m o = m + OP_minus) := by
          simpa [opCode_eq_minus_iff] using ho
        rw [subElim_cons_other o y ps ho]
        simp only [encode, List.map_cons, take_two, drop_two, List.drop_one, List.tail_cons]
        rw [zipWith_dropLast_of_lt _ _ _
          (by simp only [List.length_map, List.length_cons, encode_length]; omega)]
        rw [subElim_aux m ps (decide (opCode m o = m + OP_minus)) y hy htail]
        simp [hx, hoc]

/-! ## Precedence reduction -/

theorem ind_opCode (m : Int) (o : RefOp) :
    (if opCode m o = m + OP_plus then (1 : Int) else 0) =
      if o = RefOp.plus then 1 else 0 := by
  cases o <;> simp [opCode, OP_plus, OP_minus, OP_times, OP_blank]

theorem everyOther_encode (m : Int) :
    ∀ (ps : List (RefOp × Int)) (x : Int),
      everyOther (encode m x ps) = x :: ps.map Prod.snd := by
  intro ps
  induction ps with
  | nil => intro x; simp [encode, everyOther]
  | cons p ps ih =>
      intro x
      obtain ⟨o, y⟩ := p
      simp [encode, everyOther, ih]

/-- The segment ids computed by `_perform_multiplications` on an encoded
expression are the running counts of `+` operators. -/
theorem term_ids_encode (m : Int) :
    ∀ (ps : List (RefOp × Int)) (acc y : Int), y ≠ m + OP_plus →
      (∀ p ∈ ps, p.2 ≠ m + OP_plus) →
      everyOther (cumsumFrom acc
          ((encode m y ps).map (fun v => if v = m + OP_plus then (1 : Int) else 0))) =
        acc :: idsFrom acc ps := by
  intro ps
  induction ps with
  | nil =>
      intro acc y hy _
      simp [encode, cumsumFrom, everyOther, idsFrom, hy]
  | cons p ps ih =>
      intro acc y hy h
      obtain ⟨o, z⟩ := p
      have hz : z ≠ m + OP_plus := h (o, z) (List.mem_cons_self _ _)
      have htail : ∀ q ∈ ps, q.2 ≠ m + OP_plus := fun q hq => h q (List.mem_cons_of_mem _ hq)
      simp only [encode, List.map_cons, cumsumFrom, if_neg hy, add_zero, everyOther]
      rw [ih (acc + if opCode m o = m + OP_plus then 1 else 0) z hz htail]
      rw [ind_opCode]
      simp [idsFrom]

theorem foldl_prodFilter (j : Int) :
    ∀ (l : List (Int × Int)) (a : Int),
      l.foldl (fun acc p => if p.2 = j then acc * p.1 else acc) a = a * prodFilter l j := by
  intro l
  induction l with
  | nil => intro a; simp [prodFilter]
  | cons p l ih =>
      intro a
      simp only [List.foldl_cons, prodFilter]
      rw [ih, ih]
      split <;> ring

theorem prodFilter_cons (p : Int × Int) (l : List (Int × Int)) (j : Int) :
    prodFilter (p :: l) j = (if p.2 = j then p.1 else 1) * prodFilter l j := by
  have h : prodFilter (p :: l) j =
      (if p.2 = j then 1 * p.1 else 1) * prodFilter l j := foldl_prodFilter j l _
  rw [h]
  split <;> ring

theorem prodFilter_eq_one (j : Int) :
    ∀ l : List (Int × Int), (∀ p ∈ l, p.2 ≠ j) → prodFilter l j = 1 := by
  intro l
  induction l with
  | nil => intro _; rfl
  | cons p l ih =>
      intro h
      rw [prodFilter_cons, if_neg (h p (List.mem_cons_self _ _)), one_mul,
        ih (fun q hq => h q (List.mem_cons_of_mem _ hq))]

theorem idsFrom_le :
    ∀ (ps : List (RefOp × Int)) (c d : Int), d ∈ idsFrom c ps → c ≤ d := by
  intro ps
  induction ps with
  | nil => intro c d h; simp [idsFrom] at h
  | cons p ps ih =>
      intro c d h
      obtain ⟨o, z⟩ := p
      simp only [idsFrom, List.mem_cons] at h
      rcases h with h | h
      · subst h; split <;> omega
      · have := ih _ _ h
        split at this <;> omega

theorem prodFilter_zip_lt (c j x : Int) (ps : List (RefOp × Int)) (h : j < c) :
    prodFilter ((x, c) :: List.zip (ps.map Prod.snd) (idsFrom c ps)) j = 1 := by
  apply prodFilter_eq_one
  intro p hp
  obtain ⟨a, b⟩ := p
  rcases List.mem_cons.mp hp with hb | hb
  · simp only [Prod.mk.injEq] at hb
    simp only []
    omega
  · have hmem := (List.of_mem_zip hb).2
    have := idsFrom_le ps c b hmem
    simp only []
    omega

theorem idsList_getLastD :
    ∀ (ps : List (RefOp × Int)) (c d : Int),
      (c :: idsFrom c ps).getLastD d = c + (plusCount ps : Int) := by
  intro ps
  induction ps with
  | nil => intro c d; simp [idsFrom, plusCount]
  | cons p ps ih =>
      intro c d
      obtain ⟨o, z⟩ := p
      simp only [idsFrom, plusCount]
      rw [List.getLastD_cons, ih]
      push_cast
      split <;> ring

theorem plusCount_le_length : ∀ ps : List (RefOp × Int), plusCount ps ≤ ps.length := by
  intro ps
  induction ps with
  | nil => simp [plusCount]
  | cons p ps ih =>
      simp only [plusCount, List.length_cons]
      split <;> omega

theorem prodFilter_nil (j : Int) : prodFilter [] j = 1 := rfl

/-- On an encoded `{+, *}` expression the in-range segment products are
exactly the additive terms. -/
theorem prodFilter_range_eq_termsList :
    ∀ (ps : List (RefOp × Int)) (c x : Int),
      (∀ p ∈ ps, p.1 = RefOp.plus ∨ p.1 = RefOp.times) →
      (List.range (plusCount ps + 1)).map
          (fun (i : Nat) => prodFilter
            (List.zip (x :: ps.map Prod.snd) (c :: idsFrom c ps)) (c + (i : Int))) =
        termsList x ps := by
  intro ps
  induction ps with
  | nil =>
      intro c x _
      rw [show plusCount ([] : List (RefOp × Int)) + 1 = 1 from rfl,
        show List.range 1 = [0] from rfl]
      simp [idsFrom, termsList, prodFilter_cons, prodFilter_nil]
  | cons p ps ih =>
      intro c x hops
      obtain ⟨o, z⟩ := p
      have htail : ∀ q ∈ ps, q.1 = RefOp.plus ∨ q.1 = RefOp.times :=
        fun q hq => hops q (List.mem_cons_of_mem _ hq)
      have ho := hops (o, z) (List.mem_cons_self _ _)
      simp only [] at ho
      rcases ho with ho | ho
      · subst ho
        have hpc : plusCount ((RefOp.plus, z) :: ps) = plusCount ps + 1 := by
          simp [plusCount]
          omega
        have hids : idsFrom c ((RefOp.plus, z) :: ps) = (c + 1) :: idsFrom (c + 1) ps := by
          simp [idsFrom]
        have hterm : termsList x ((RefOp.plus, z) :: ps) = x :: termsList z ps := rfl
        rw [hpc, hids, hterm, List.range_succ_eq_map, List.map_cons, List.map_map]
        congr 1
        · simp only [List.map_cons, List.zip_cons_cons]
          rw [prodFilter_cons]
          have h1 : prodFilter ((z, c + 1) :: (ps.map Prod.snd).zip (idsFrom (c + 1) ps)) c = 1 :=
            prodFilter_zip_lt (c + 1) c z ps (by omega)
          simp [h1]
        · have hcong : ∀ i ∈ List.range (plusCount ps + 1),
              ((fun (i : Nat) => prodFilter
                  (List.zip (x :: (((RefOp.plus, z) :: ps).map Prod.snd))
                    (c :: (c + 1) :: idsFrom (c + 1) ps)) (c + (i : Int))) ∘ Nat.succ) i =
                prodFilter (List.zip (z :: ps.map Prod.snd) ((c + 1) :: idsFrom (c + 1) ps))
                  ((c + 1) + (i : Int)) := by
            intro i _
            simp only [Function.comp_apply, List.map_cons, List.zip_cons_cons]
            rw [prodFilter_cons]
            dsimp only
            have hne : ¬ (c = c + ((Nat.succ i : Nat) : Int)) := by push_cast; omega
            rw [if_neg hne, one_mul]
            have harg : c + ((Nat.succ i : Nat) : Int) = (c + 1) + (i : Int) := by
              push_cast
              ring
            rw [harg]
          rw [List.map_congr_left hcong, ih (c + 1) z htail]
      · subst ho
        have hpc : plusCount ((RefOp.times, z) :: ps) = plusCount ps := by
          simp [plusCount]
        have hids : idsFrom c ((RefOp.times, z) :: ps) = c :: idsFrom c ps := by
          simp [idsFrom]
        have hterm : termsList x ((RefOp.times, z) :: ps) = termsList (x * z) ps := rfl
        rw [hpc, hids, hterm, ← ih c (x * z) htail]
        apply List.map_congr_left
        intro i _
        simp only [List.map_cons, List.zip_cons_cons]
        rw [prodFilter_cons, prodFilter_cons, prodFilter_cons]
        dsimp only
        split <;> ring

theorem segment_prod_eq (data segment_ids : List Int) (n : Nat) :
    segment_prod data segment_ids n =
      (List.range n).map (fun (j : Nat) => prodFilter (data.zip segment_ids) (j : Int)) := rfl

theorem zipWith_map_left_self {α β γ : Type} (g : α → β) (h : β → α → γ) :
    ∀ l : List α, List.zipWith h (l.map g) l = l.map (fun a => h (g a) a) := by
  intro l
  induction l with
  | nil => rfl
  | cons a l ih => simp [ih]

/-- Full characterisation of `_perform_multiplications` on an encoded `{+, *}`
expression: the output is the list of additive terms (raw products, not
reduced modulo `m`) zero-padded to the fixed width `length / 2 + 1`. -/
theorem perform_multiplications_encode (m x : Int) (ps : List (RefOp × Int))
    (hx : x ≠ m + OP_plus) (hres : ∀ p ∈ ps, p.2 ≠ m + OP_plus)
    (hops : ∀ p ∈ ps, p.1 = RefOp.plus ∨ p.1 = RefOp.times) :
    perform_multiplications (encode m x ps) m =
      termsList x ps ++ List.replicate (ps.length - plusCount ps) 0 := by
  have hTID : everyOther (cumsum ((encode m x ps).map
      (fun v => if v = m + OP_plus then (1 : Int) else 0))) = (0 : Int) :: idsFrom 0 ps := by
    rw [cumsum]
    exact term_ids_encode m ps 0 x hx hres
  have hN : (encode m x ps).length / 2 + 1 = ps.length + 1 := by
    rw [encode_length]
    omega
  simp only [perform_multiplications]
  rw [hTID, hN, everyOther_encode, segment_prod_eq, idsList_getLastD ps 0 0,
    zipWith_map_left_self]
  have hsplit : ps.length + 1 = (plusCount ps + 1) + (ps.length - plusCount ps) := by
    have := plusCount_le_length ps
    omega
  rw [hsplit, List.range_add, List.map_append]
  congr 1
  · rw [← prodFilter_range_eq_termsList ps 0 x hops]
    apply List.map_congr_left
    intro i hi
    have hi2 : i < plusCount ps + 1 := List.mem_range.mp hi
    have hmask : ((i : Nat) : Int) ≤ 0 + (plusCount ps : Int) := by omega
    rw [if_pos hmask, mul_one, zero_add]
  · rw [List.map_map]
    have hz : ∀ i ∈ List.range (ps.length - plusCount ps),
        ((fun (j : Nat) => prodFilter ((x :: ps.map Prod.snd).zip ((0 : Int) :: idsFrom 0 ps))
              (j : Int) * (if ((j : Nat) : Int) ≤ 0 + (plusCount ps : Int) then (1 : Int) else 0)) ∘
            (fun i => plusCount ps + 1 + i)) i = (fun _ => (0 : Int)) i := by
      intro i _
      simp only [Function.comp_apply]
      have hmask : ¬ (((plusCount ps + 1 + i : Nat) : Int) ≤ 0 + (plusCount ps : Int)) := by
        push_cast
        omega
      rw [if_neg hmask, mul_zero]
    rw [List.map_congr_left hz, List.map_const', List.length_range]

/-! ## Reference-evaluator lemmas and the pipeline correctness theorem -/

theorem evalTerms_eq_sum :
    ∀ (ps : List (RefOp × Int)) (acc t : Int),
      evalTerms acc t ps = acc + (termsList t ps).sum := by
  intro ps
  induction ps with
  | nil => intro acc t; simp [evalTerms, termsList]
  | cons p ps ih =>
      intro acc t
      obtain ⟨o, y⟩ := p
      cases o <;> simp [evalTerms, termsList, ih] <;> ring

theorem evalTerms_subElim :
    ∀ (ps : List (RefOp × Int)) (acc t : Int),
      evalTerms acc t (subElim ps) = evalTerms acc t ps := by
  intro ps
  induction ps with
  | nil => intro acc t; rfl
  | cons p ps ih =>
      intro acc t
      obtain ⟨o, y⟩ := p
      cases o with
      | plus => rw [subElim_cons_other _ _ _ (by simp)]; simp [evalTerms, ih]
      | minus => rw [subElim_cons_minus]; simp [evalTerms, ih]
      | times => rw [subElim_cons_other _ _ _ (by simp)]; simp [evalTerms, ih]
      | blank => rw [subElim_cons_other _ _ _ (by simp)]; simp [evalTerms, ih]

theorem blankOp_plus : blankOp RefOp.plus = RefOp.plus := rfl

theorem blankOp_minus : blankOp RefOp.minus = RefOp.minus := rfl

theorem blankOp_times : blankOp RefOp.times = RefOp.times := rfl

theorem blankOp_blank : blankOp RefOp.blank = RefOp.plus := rfl

theorem evalTerms_blankOp :
    ∀ (ps : List (RefOp × Int)) (acc t : Int),
      evalTerms acc t (ps.map (fun p => (blankOp p.1, p.2))) = evalTerms acc t ps := by
  intro ps
  induction ps with
  | nil => intro acc t; rfl
  | cons p ps ih =>
      intro acc t
      obtain ⟨o, y⟩ := p
      cases o <;>
        simp only [List.map_cons, blankOp_plus, blankOp_minus, blankOp_times, blankOp_blank] <;>
        simp [evalTerms, ih]

theorem evalTerms_pad :
    ∀ (j : Nat) (acc t : Int),
      evalTerms acc t (List.replicate j (RefOp.plus, (0 : Int))) = acc + t := by
  intro j
  induction j with
  | zero => intro acc t; rfl
  | succ j ih => intro acc t; simp [List.replicate_succ, evalTerms, ih]

theorem evalTerms_append_pad :
    ∀ (ps : List (RefOp × Int)) (j : Nat) (acc t : Int),
      evalTerms acc t (ps ++ List.replicate j (RefOp.plus, (0 : Int))) = evalTerms acc t ps := by
  intro ps
  induction ps with
  | nil => intro j acc t; simp [evalTerms, evalTerms_pad]
  | cons p ps ih =>
      intro j acc t
      obtain ⟨o, y⟩ := p
      cases o <;> simp [evalTerms, ih]

theorem blankResolve_eq (m : Int) (ps : List (RefOp × Int))
    (h : ∀ p ∈ ps, p.2 ≠ OP_blank + m) :
    blankResolve m ps = ps.map (fun p => (blankOp p.1, p.2)) := by
  unfold blankResolve
  apply List.map_congr_left
  intro p hp
  simp [blankRes, h p hp]

theorem blankOp_ne_blank (o : RefOp) : blankOp o ≠ RefOp.blank := by
  cases o <;> simp [blankOp]

theorem subElim_residues (m : Int) (ps : List (RefOp × Int))
    (h : ∀ p ∈ ps, -m < p.2 ∧ p.2 < m) :
    ∀ q ∈ subElim ps, -m < q.2 ∧ q.2 < m := by
  intro q hq
  obtain ⟨p, hp, rfl⟩ := List.mem_map.mp hq
  have hb := h p hp
  split
  · dsimp only
    omega
  · omega

theorem subElim_ops (ps : List (RefOp × Int)) (h : ∀ p ∈ ps, p.1 ≠ RefOp.blank) :
    ∀ q ∈ subElim ps, q.1 = RefOp.plus ∨ q.1 = RefOp.times := by
  intro q hq
  obtain ⟨p, hp, rfl⟩ := List.mem_map.mp hq
  have hnb := h p hp
  obtain ⟨o, y⟩ := p
  cases o with
  | plus => simp
  | minus => simp
  | times => simp
  | blank => exact absurd rfl hnb

theorem termsList_length :
    ∀ (ps : List (RefOp × Int)) (t : Int),
      (∀ p ∈ ps, p.1 = RefOp.plus ∨ p.1 = RefOp.times) →
      (termsList t ps).length = plusCount ps + 1 := by
  intro ps
  induction ps with
  | nil => intro t _; simp [termsList, plusCount]
  | cons p ps ih =>
      intro t h
      obtain ⟨o, y⟩ := p
      have htail : ∀ q ∈ ps, q.1 = RefOp.plus ∨ q.1 = RefOp.times :=
        fun q hq => h q (List.mem_cons_of_mem _ hq)
      have ho := h (o, y) (List.mem_cons_self _ _)
      simp only [] at ho
      rcases ho with ho | ho
      · subst ho
        simp [termsList, plusCount, ih y htail]
        omega
      · subst ho
        simp [termsList, plusCount, ih (t * y) htail]

/-- The pipeline after blank resolution: subtraction elimination followed by
the fixed-width precedence reduction computes the reference value. -/
theorem pipeline_post (m x : Int) (qs : List (RefOp × Int))
    (hx : -m < x ∧ x < m) (hq : ∀ p ∈ qs, -m < p.2 ∧ p.2 < m)
    (hop : ∀ p ∈ qs, p.1 ≠ RefOp.blank) :
    (perform_multiplications (replace_subtractions (encode m x qs) m) m).sum % m
      = referenceEval x qs m := by
  rw [replace_subtractions_encode m x qs
    (by simp only [OP_minus]; omega)
    (fun p hp => by have := hq p hp; simp only [OP_minus]; omega)]
  rw [perform_multiplications_encode m x (subElim qs)
    (by simp only [OP_plus, add_zero]; omega)
    (fun p hp => by
      have := subElim_residues m qs hq p hp
      simp only [OP_plus, add_zero]
      omega)
    (subElim_ops qs hop)]
  rw [List.sum_append]
  simp only [List.sum_replicate, smul_zero, add_zero]
  have h1 : (termsList x (subElim qs)).sum = evalTerms 0 x (subElim qs) := by
    rw [evalTerms_eq_sum]
    ring
  rw [h1, evalTerms_subElim, referenceEval]

/-- Main correctness theorem: on any encoded expression with in-range
residues the full pipeline computes the reference value. -/
theorem evaluate_encode (m x : Int) (ps : List (RefOp × Int))
    (hx : -m < x ∧ x < m) (hps : ∀ p ∈ ps, -m < p.2 ∧ p.2 < m) :
    evaluate_expression (encode m x ps) m = referenceEval x ps m := by
  simp only [evaluate_expression]
  rw [replace_blanks_encode]
  have hbx : blankRes m x = x := by
    simp only [blankRes, OP_blank]
    rw [if_neg (by omega)]
  have hbps : blankResolve m ps = ps.map (fun p => (blankOp p.1, p.2)) :=
    blankResolve_eq m ps (fun p hp => by
      have := hps p hp
      simp only [OP_blank]
      omega)
  rw [hbx, hbps]
  have hres : ∀ p ∈ ps.map (fun p => (blankOp p.1, p.2)), -m < p.2 ∧ p.2 < m := by
    intro p hp
    obtain ⟨q, hq, rfl⟩ := List.mem_map.mp hp
    exact hps q hq
  have hops : ∀ p ∈ ps.map (fun p => (blankOp p.1, p.2)), p.1 ≠ RefOp.blank := by
    intro p hp
    obtain ⟨q, hq, rfl⟩ := List.mem_map.mp hp
    exact blankOp_ne_blank q.1
  rw [pipeline_post m x (ps.map (fun p => (blankOp p.1, p.2))) hx hres hops]
  simp only [referenceEval]
  rw [evalTerms_blankOp]

/-! ## Positional facts about blank resolution -/

theorem replace_blanks_length (m : Int) :
    ∀ e : List Int, (replace_blanks e m).length = e.length := by
  intro e
  induction e using two_step_induction with
  | h0 => rfl
  | h1 a => rw [replace_blanks_singleton]; rfl
  | h2 a b l ih => rw [replace_blanks_cons_cons]; simp [ih]

theorem replace_blanks_getD (m : Int) :
    ∀ (e : List Int) (i : Nat), i < e.length →
      (replace_blanks e m).getD i 0 =
        if e.getD i 0 = OP_blank + m
        then (if i % 2 = 1 then OP_plus + m else 0)
        else e.getD i 0 := by
  intro e
  induction e using two_step_induction with
  | h0 => intro i hi; simp at hi
  | h1 a =>
      intro i hi
      have hi0 : i = 0 := by simpa using hi
      subst hi0
      rw [replace_blanks_singleton]
      simp
  | h2 a b l ih =>
      intro i hi
      rw [replace_blanks_cons_cons]
      match i with
      | 0 => simp
      | 1 => simp
      | (i + 2) =>
          simp only [List.getD_cons_succ]
          rw [show (i + 2) % 2 = i % 2 from by omega]
          exact ih i (by simpa using hi)

theorem replace_blanks_no_blank (m : Int) (hm : 0 < m) :
    ∀ e : List Int, (OP_blank + m) ∉ replace_blanks e m := by
  intro e
  induction e using two_step_induction with
  | h0 => simp [replace_blanks_nil]
  | h1 a =>
      rw [replace_blanks_singleton]
      simp only [List.mem_singleton, OP_blank]
      split <;> omega
  | h2 a b l ih =>
      rw [replace_blanks_cons_cons]
      simp only [List.mem_cons, not_or]
      refine ⟨?_, ?_, ih⟩
      · simp only [OP_blank]
        split <;> omega
      · simp only [OP_blank, OP_plus]
        split <;> omega

/-- The all-blank expression of odd length is the encoding of a structured
expression made of blanks only. -/
theorem replicate_blank_encode (m : Int) :
    ∀ k : Nat, List.replicate (2 * k + 1) (m + OP_blank) =
      encode m (m + OP_blank) (List.replicate k (RefOp.blank, m + OP_blank)) := by
  intro k
  induction k with
  | zero => rfl
  | succ k ih =>
      rw [show 2 * (k + 1) + 1 = ((2 * k + 1) + 1) + 1 from by ring]
      rw [List.replicate_succ, List.replicate_succ, ih, List.replicate_succ]
      simp [encode, opCode]

/-! ## Claims -/

/-- C1: for every well-formed expression (odd length, alternating
residue/operator layout, residues in `[0, m)`, operators drawn from the
`{+, -, *, blank}` codes) and every positive modulus `m`, the three-stage
pipeline `_evaluate_expression` returns the same value as the reference
standard-precedence evaluator modulo `m` (a blank operator slot denoting,
per the specification, the padding identity operator `+`). -/
theorem claim_C1 (m x : Int) (ps : List (RefOp × Int)) (hm : 0 < m)
    (hx : 0 ≤ x ∧ x < m) (hps : ∀ p ∈ ps, 0 ≤ p.2 ∧ p.2 < m) :
    evaluate_expression (encode m x ps) m = referenceEval x ps m :=
  evaluate_encode m x ps ⟨by omega, hx.2⟩
    (fun p hp => ⟨by have := (hps p hp).1; omega, (hps p hp).2⟩)

theorem claim_C1_witness :
    evaluate_expression (encode 5 1 [(RefOp.plus, 2), (RefOp.times, 3)]) 5 =
      referenceEval 1 [(RefOp.plus, 2), (RefOp.times, 3)] 5 :=
  claim_C1 5 1 [(RefOp.plus, 2), (RefOp.times, 3)] (by decide) (by decide) (by decide)

/-- C2 counterexample: on the encoded `[1, -, 3]` with modulus `5` the code
produces the negated residue `-3`, not the claimed representative
`m - r = 2` lying in `[0, m)`. -/
theorem claim_C2_counterexample :
    replace_subtractions [1, 6, 3] 5 = [1, 5, -3] ∧
      replace_subtractions [1, 6, 3] 5 ≠ [1, 5, 2] :=
  ⟨by decide, by decide⟩

/-- C2 (amended): `_replace_subtractions` returns an expression of the same
length in which every `-` operator is replaced by `+` and the residue
immediately following it by its negation `-r` — an integer congruent to
`m - r` modulo `m` but possibly negative, not reduced into `[0, m)` — with
all resulting operators among the `{+, *}` codes. -/
theorem claim_C2_amended (m x : Int) (ps : List (RefOp × Int)) (_hm : 0 < m)
    (hx : 0 ≤ x ∧ x < m) (hps : ∀ p ∈ ps, 0 ≤ p.2 ∧ p.2 < m)
    (hops : ∀ p ∈ ps, p.1 ≠ RefOp.blank) :
    replace_subtractions (encode m x ps) m = encode m x (subElim ps) ∧
      (encode m x (subElim ps)).length = (encode m x ps).length ∧
      (∀ q ∈ subElim ps, q.1 = RefOp.plus ∨ q.1 = RefOp.times) := by
  refine ⟨?_, ?_, subElim_ops ps hops⟩
  · exact replace_subtractions_encode m x ps
      (by simp only [OP_minus]; omega)
      (fun p hp => by have := hps p hp; simp only [OP_minus]; omega)
  · rw [encode_length, encode_length]
    simp [subElim]

theorem claim_C2_amended_witness :
    replace_subtractions (encode 5 1 [(RefOp.minus, 3)]) 5 =
        encode 5 1 (subElim [(RefOp.minus, 3)]) ∧
      (encode 5 1 (subElim [(RefOp.minus, 3)])).length =
        (encode 5 1 [(RefOp.minus, 3)]).length ∧
      (∀ q ∈ subElim [(RefOp.minus, 3)], q.1 = RefOp.plus ∨ q.1 = RefOp.times) :=
  claim_C2_amended 5 1 [(RefOp.minus, 3)] (by decide) (by decide) (by decide) (by decide)

/-- C3 counterexample: on the encoded `[2, *, 3]` with modulus `5` the output
slot holds the raw product `6`, not the product reduced modulo `5`. -/
theorem claim_C3_counterexample :
    perform_multiplications [2, 7, 3] 5 = [6, 0] ∧
      perform_multiplications [2, 7, 3] 5 ≠ [(2 * 3 : Int) % 5, 0] :=
  ⟨by decide, by decide⟩

/-- C3 (amended): on a well-formed `{+, *}` expression of length `L`,
`_perform_multiplications` returns exactly `L / 2 + 1` slots; the leading
slots hold the raw (not reduced modulo `m`) products of the residues of each
term, terms being indexed from zero by the prefix count of `+` operators,
and every slot beyond the last term index is zero rather than the
multiplicative identity `1`. -/
theorem claim_C3_amended (m x : Int) (ps : List (RefOp × Int)) (_hm : 0 < m)
    (hx : 0 ≤ x ∧ x < m) (hps : ∀ p ∈ ps, 0 ≤ p.2 ∧ p.2 < m)
    (hops : ∀ p ∈ ps, p.1 = RefOp.plus ∨ p.1 = RefOp.times) :
    perform_multiplications (encode m x ps) m =
        termsList x ps ++ List.replicate (ps.length - plusCount ps) 0 ∧
      (perform_multiplications (encode m x ps) m).length =
        (encode m x ps).length / 2 + 1 := by
  have h := perform_multiplications_encode m x ps
    (by simp only [OP_plus, add_zero]; omega)
    (fun p hp => by have := hps p hp; simp only [OP_plus, add_zero]; omega)
    hops
  refine ⟨h, ?_⟩
  rw [h, List.length_append, termsList_length ps x hops, List.length_replicate,
    encode_length]
  have := plusCount_le_length ps
  omega

theorem claim_C3_amended_witness :
    perform_multiplications (encode 5 2 [(RefOp.times, 3)]) 5 =
        termsList 2 [(RefOp.times, 3)] ++
          List.replicate ([(RefOp.times, 3)].length - plusCount [(RefOp.times, 3)]) 0 ∧
      (perform_multiplications (encode 5 2 [(RefOp.times, 3)]) 5).length =
        (encode 5 2 [(RefOp.times, 3)]).length / 2 + 1 :=
  claim_C3_amended 5 2 [(RefOp.times, 3)] (by decide) (by decide) (by decide) (by decide)

/-- C4: subtraction elimination preserves the evaluated value: feeding either
the original well-formed expression or its subtraction-eliminated form
through the pipeline yields the same result, and that result is the
standard-precedence reference value modulo `m`. -/
theorem claim_C4 (m x : Int) (ps : List (RefOp × Int)) (hm : 0 < m)
    (hx : 0 ≤ x ∧ x < m) (hps : ∀ p ∈ ps, 0 ≤ p.2 ∧ p.2 < m) :
    evaluate_expression (encode m x ps) m =
        evaluate_expression (replace_subtractions (encode m x ps) m) m ∧
      evaluate_expression (encode m x ps) m = referenceEval x ps m := by
  have hxw : -m < x ∧ x < m := ⟨by omega, hx.2⟩
  have hpsw : ∀ p ∈ ps, -m < p.2 ∧ p.2 < m :=
    fun p hp => ⟨by have := (hps p hp).1; omega, (hps p hp).2⟩
  have hmain := evaluate_encode m x ps hxw hpsw
  have hB := replace_subtractions_encode m x ps
    (by simp only [OP_minus]; omega)
    (fun p hp => by have := hps p hp; simp only [OP_minus]; omega)
  refine ⟨?_, hmain⟩
  rw [hB, hmain, evaluate_encode m x (subElim ps) hxw (subElim_residues m ps hpsw)]
  simp only [referenceEval]
  rw [evalTerms_subElim]

theorem claim_C4_witness :
    evaluate_expression (encode 5 1 [(RefOp.minus, 1), (RefOp.minus, 1)]) 5 =
        evaluate_expression
          (replace_subtractions (encode 5 1 [(RefOp.minus, 1), (RefOp.minus, 1)]) 5) 5 ∧
      evaluate_expression (encode 5 1 [(RefOp.minus, 1), (RefOp.minus, 1)]) 5 =
        referenceEval 1 [(RefOp.minus, 1), (RefOp.minus, 1)] 5 :=
  claim_C4 5 1 [(RefOp.minus, 1), (RefOp.minus, 1)] (by decide) (by decide) (by decide)

/-- C5 counterexample: inserting a blank pair (blank residue slot paired with
an adjacent blank operator slot, preserving the odd-length alternating
layout) inside the multiplicative run of the encoded `[3, *, 2]` with modulus
`5` (codes `* = 7`, `_ = 8`) changes the evaluated result: the padded
expression evaluates to `2` while the original evaluates to `1`. -/
theorem claim_C5_counterexample :
    evaluate_expression [3, 7, 8, 8, 2] 5 = 2 ∧
      evaluate_expression [3, 7, 2] 5 = 1 ∧
      evaluate_expression [3, 7, 8, 8, 2] 5 ≠ evaluate_expression [3, 7, 2] 5 :=
  ⟨by decide, by decide, by decide⟩

/-- C5 (amended): padding invariance holds for blank padding appended at the
end of the expression — the padding use case: appending any number of
(blank operator, blank residue) pairs to a well-formed expression leaves the
evaluated result unchanged.  (A blank pair inserted inside a multiplicative
run can change the result, as the counterexample shows.) -/
theorem claim_C5_amended (m x : Int) (ps : List (RefOp × Int)) (j : Nat) (hm : 0 < m)
    (hx : 0 ≤ x ∧ x < m) (hps : ∀ p ∈ ps, 0 ≤ p.2 ∧ p.2 < m) :
    evaluate_expression
        (encode m x (ps ++ List.replicate j (RefOp.blank, OP_blank + m))) m =
      evaluate_expression (encode m x ps) m := by
  have hxw : -m < x ∧ x < m := ⟨by omega, hx.2⟩
  have hpsw : ∀ p ∈ ps, -m < p.2 ∧ p.2 < m :=
    fun p hp => ⟨by have := (hps p hp).1; omega, (hps p hp).2⟩
  rw [evaluate_encode m x ps hxw hpsw]
  simp only [evaluate_expression]
  rw [replace_blanks_encode]
  have hbx : blankRes m x = x := by
    simp only [blankRes, OP_blank]
    rw [if_neg (by omega)]
  have hpad : blankResolve m (ps ++ List.replicate j (RefOp.blank, OP_blank + m)) =
      blankResolve m ps ++ List.replicate j (RefOp.plus, 0) := by
    unfold blankResolve
    rw [List.map_append, List.map_replicate]
    simp [blankOp_blank, blankRes]
  have hbps : blankResolve m ps = ps.map (fun p => (blankOp p.1, p.2)) :=
    blankResolve_eq m ps (fun p hp => by
      have := hps p hp
      simp only [OP_blank]
      omega)
  rw [hbx, hpad, hbps]
  have hres : ∀ p ∈ ps.map (fun p => (blankOp p.1, p.2)) ++ List.replicate j (RefOp.plus, 0),
      -m < p.2 ∧ p.2 < m := by
    intro p hp
    rcases List.mem_append.mp hp with hp | hp
    · obtain ⟨q, hq, rfl⟩ := List.mem_map.mp hp
      exact hpsw q hq
    · have := List.eq_of_mem_replicate hp
      subst this
      exact ⟨by omega, hm⟩
  have hops : ∀ p ∈ ps.map (fun p => (blankOp p.1, p.2)) ++ List.replicate j (RefOp.plus, 0),
      p.1 ≠ RefOp.blank := by
    intro p hp
    rcases List.mem_append.mp hp with hp | hp
    · obtain ⟨q, hq, rfl⟩ := List.mem_map.mp hp
      exact blankOp_ne_blank q.1
    · have := List.eq_of_mem_replicate hp
      subst this
      simp
  rw [pipeline_post m x _ hxw hres hops]
  simp only [referenceEval]
  rw [evalTerms_append_pad, evalTerms_blankOp]

theorem claim_C5_amended_witness :
    evaluate_expression
        (encode 5 3 ([(RefOp.times, 2)] ++ List.replicate 1 (RefOp.blank, OP_blank + 5))) 5 =
      evaluate_expression (encode 5 3 [(RefOp.times, 2)]) 5 :=
  claim_C5_amended 5 3 [(RefOp.times, 2)] 1 (by decide) (by decide) (by decide)

/-- C6: for every symbol sequence and positive modulus, `_replace_blanks`
preserves the length, replaces a blank code at an odd (operator) index by
the `+` operator code, replaces a blank code at an even (residue) index by
the residue `0`, leaves every other symbol unchanged, and leaves no blank
code in the output. -/
theorem claim_C6 (e : List Int) (m : Int) (hm : 0 < m) :
    (replace_blanks e m).length = e.length ∧
      (∀ i, i < e.length →
        (replace_blanks e m).getD i 0 =
          if e.getD i 0 = OP_blank + m
          then (if i % 2 = 1 then OP_plus + m else 0)
          else e.getD i 0) ∧
      (OP_blank + m) ∉ replace_blanks e m :=
  ⟨replace_blanks_length m e, replace_blanks_getD m e, replace_blanks_no_blank m hm e⟩

theorem claim_C6_witness :
    (replace_blanks [8, 8, 3] 5).length = ([8, 8, 3] : List Int).length ∧
      (∀ i, i < ([8, 8, 3] : List Int).length →
        (replace_blanks [8, 8, 3] 5).getD i 0 =
          if ([8, 8, 3] : List Int).getD i 0 = OP_blank + 5
          then (if i % 2 = 1 then OP_plus + 5 else 0)
          else ([8, 8, 3] : List Int).getD i 0) ∧
      (OP_blank + 5) ∉ replace_blanks [8, 8, 3] 5 :=
  claim_C6 [8, 8, 3] 5 (by decide)

/-- C7: for every symbol sequence (in particular every well-formed
expression) and every positive modulus, `_evaluate_expression` returns a
value in `[0, m)`, the final Euclidean `%` absorbing any negative or
oversized intermediate values. -/
theorem claim_C7 (e : List Int) (m : Int) (hm : 0 < m) :
    0 ≤ evaluate_expression e m ∧ evaluate_expression e m < m := by
  simp only [evaluate_expression]
  exact ⟨Int.emod_nonneg _ (by omega), Int.emod_lt_of_pos _ hm⟩

theorem claim_C7_witness :
    0 ≤ evaluate_expression [1, 5, 2] 5 ∧ evaluate_expression [1, 5, 2] 5 < 5 :=
  claim_C7 [1, 5, 2] 5 (by decide)

/-- C8: the literal scenarios with modulus `5` (operator codes `+ = 5`,
`- = 6`, `* = 7`): `[1,+,2,*,3] → 2`, `[1,-,1,-,1] → 4`,
`[0,*,1,+,4,*,3,-,2] → 0`, and the single residue `[3] → 3`. -/
theorem claim_C8 :
    evaluate_expression [1, 5, 2, 7, 3] 5 = 2 ∧
      evaluate_expression [1, 6, 1, 6, 1] 5 = 4 ∧
      evaluate_expression [0, 7, 1, 5, 4, 7, 3, 6, 2] 5 = 0 ∧
      evaluate_expression [3] 5 = 3 :=
  ⟨by decide, by decide, by decide, by decide⟩

/-- C9: the `operators` constructor argument has no effect: any two
constructions with the same modulus produce identical task state, whose
stored operator tuple is the hard-coded `(0, 2, 1)`, so `sample_batch` draws
operator symbols from the same fixed code set `{m+0, m+2, m+1}` in both. -/
theorem claim_C9 (m : Int) (a b : Option (List String)) :
    ModularArithmetic_init m a = ModularArithmetic_init m b ∧
      sample_ops (ModularArithmetic_init m a) = [m + 0, m + 2, m + 1] := by
  constructor
  · cases a <;> cases b <;> rfl
  · cases a <;> simp [sample_ops, ModularArithmetic_init]

/-- C10: the fully padded expression — every position of an odd-length
sequence holding the blank code `m + 3` — is accepted by the pipeline and
evaluates to `0`, blanks resolving to `0` residues joined by `+`. -/
theorem claim_C10 (m : Int) (k : Nat) (hm : 0 < m) :
    evaluate_expression (List.replicate (2 * k + 1) (m + OP_blank)) m = 0 := by
  rw [replicate_blank_encode]
  simp only [evaluate_expression]
  rw [replace_blanks_encode]
  have hbx : blankRes m (m + OP_blank) = 0 := by
    simp only [blankRes, OP_blank]
    rw [if_pos (by ring)]
  have hbres : blankResolve m (List.replicate k (RefOp.blank, m + OP_blank)) =
      List.replicate k (RefOp.plus, 0) := by
    unfold blankResolve
    rw [List.map_replicate]
    simp only [blankOp_blank, blankRes, OP_blank, Prod.mk.injEq]
    rw [if_pos (by ring)]
  rw [hbx, hbres]
  rw [pipeline_post m 0 (List.replicate k (RefOp.plus, 0)) ⟨by omega, hm⟩
    (fun p hp => by
      have := List.eq_of_mem_replicate hp
      subst this
      exact ⟨by omega, hm⟩)
    (fun p hp => by
      have := List.eq_of_mem_replicate hp
      subst this
      simp)]
  simp only [referenceEval]
  rw [evalTerms_pad]
  simp

theorem claim_C10_witness :
    evaluate_expression (List.replicate (2 * 2 + 1) (5 + OP_blank)) 5 = 0 :=
  claim_C10 5 2 (by decide)

end ModArith
